import Mathlib

/-!
Verification development for the alabEBM repository (event-based model of
disease progression).  The definitions below are a shallow embedding of the
Python sources:

* `src/alabEBM/algorithms/algorithm.py` — the Metropolis–Hastings sampler
  `metropolis_hastings`.  Floating-point log-likelihoods are modelled as
  extended reals (`EReal`), so the initialisation `current_ln_likelihood =
  -np.inf` becomes `⊥` and `np.exp` becomes `expE` below.  The collaborator
  functions from `alabebm.utils.data_processing` (shuffling, likelihood
  computation, theta/phi re-estimation) are not part of the source tree; they
  are abstracted as oracle fields of an environment record, and the per-call
  results of `np.random` are modelled as streams indexed by the iteration.
* `src/alabEBM/utils/fast_kde.py` — `FastKDE`, the batched likelihood kernel
  `_compute_kde_logpdf`, `compute_ln_likelihood_kde_fast` and the EM updater
  `update_kde_for_biomarker_em`.  Machine floats are modelled as reals.
* `src/alabEBM/run.py` — the algorithm-name validation at the top of
  `run_ebm`.
-/

/-! ### Extended-real helpers for the sampler -/

/-- `np.exp` on IEEE floats, transported to `EReal`:
`exp(-inf) = 0`, `exp(inf) = inf`, and ordinary `Real.exp` on finite values. -/
noncomputable def expE (x : EReal) : EReal :=
  if x = ⊥ then 0 else if x = ⊤ then ⊤ else ((Real.exp x.toReal : ℝ) : EReal)

/-- Line 115 of `algorithm.py`:
`prob_accept = 1.0 if delta > 0 else np.exp(delta)`. -/
noncomputable def prob_accept (delta : EReal) : EReal :=
  if 0 < delta then 1 else expE delta

lemma expE_bot : expE ⊥ = 0 := by simp [expE]

lemma prob_accept_of_pos {delta : EReal} (h : 0 < delta) : prob_accept delta = 1 := by
  simp [prob_accept, h]

lemma prob_accept_of_not_pos {delta : EReal} (h : ¬ 0 < delta) :
    prob_accept delta = expE delta := by
  simp [prob_accept, h]

/-- Positivity of an `EReal` difference, matching the float comparison
`new_ll - current_ll > 0` whenever `new_ll > current_ll`. -/
lemma ereal_sub_pos {a b : EReal} (h : a < b) : 0 < b - a := by
  induction a using EReal.rec with
  | h_bot =>
    rw [sub_eq_add_neg, EReal.neg_bot, EReal.add_top_of_ne_bot h.ne']
    exact EReal.zero_lt_top
  | h_real r =>
    induction b using EReal.rec with
    | h_bot => exact absurd h (by simp)
    | h_real s =>
      rw [← EReal.coe_sub]
      exact EReal.coe_pos.mpr (sub_pos.mpr (EReal.coe_lt_coe_iff.mp h))
    | h_top =>
      rw [EReal.top_sub_coe]
      exact EReal.zero_lt_top
  | h_top => exact absurd h (not_top_lt)

/-! ### Metropolis–Hastings sampler (`algorithm.py`)

`Order` stands for the biomarker-ordering dictionaries (`current_order_dict`),
`ThetaPhi` for the theta/phi parameter sets.  The environment bundles the
quantities `metropolis_hastings` obtains from its collaborators before and
during the loop.  -/

/-- The algorithm name `'hard_kmeans'` (the fixed-clustering baseline). -/
def algHardKmeans : String := "hard_kmeans"

/-- The algorithm name `'conjugate_priors'`. -/
def algConjugatePriors : String := "conjugate_priors"

/-- The algorithm name `'mle'`. -/
def algMle : String := "mle"

/-- Collaborator oracle for one run of `metropolis_hastings`:
* `thetaPhiDefault` — `theta_phi_default = data_utils.get_theta_phi_estimates(data_we_have)`;
* `initialOrder` — the dict built from `np.random.permutation` (line 42–43);
* `shuffleOrder i o` — the proposal dict obtained from `data_utils.shuffle_order`
  on a copy of `o` at iteration `i` (lines 55–57, randomness indexed by `i`);
* `updateThetaPhi o t` — the composite of lines 76–95: stage posteriors under
  the current parameters `t` and proposed order `o`, then
  `data_utils.update_theta_phi_estimates`;
* `computeLL o t` — `data_utils.compute_total_ln_likelihood_and_stage_likelihoods`
  (first component) for order `o` under parameters `t`;
* `rand i` — the value of `np.random.rand()` at iteration `i` (line 118). -/
structure MHEnv (Order ThetaPhi : Type) where
  thetaPhiDefault : ThetaPhi
  initialOrder : Order
  shuffleOrder : ℕ → Order → Order
  updateThetaPhi : Order → ThetaPhi → ThetaPhi
  computeLL : Order → ThetaPhi → EReal
  rand : ℕ → ℝ

/-- The mutable chain state of `metropolis_hastings`. -/
structure MHState (Order ThetaPhi : Type) where
  currentOrder : Order
  currentThetaPhi : ThetaPhi
  currentLL : EReal
  acceptanceCount : ℕ
  allAcceptedOrders : List Order
  logLikelihoods : List EReal

/-- Lines 55–57: the proposed ordering for iteration `i`. -/
def mhNewOrder {Order ThetaPhi : Type} (env : MHEnv Order ThetaPhi) (i : ℕ)
    (s : MHState Order ThetaPhi) : Order :=
  env.shuffleOrder i s.currentOrder

/-- Lines 74–95: `new_theta_phi` is assigned only in the
`algorithm in ['conjugate_priors', 'mle']` branch; otherwise the Python name
stays unbound, which we record as `none`. -/
def mhNewThetaPhiOpt {Order ThetaPhi : Type} (alg : String) (env : MHEnv Order ThetaPhi)
    (i : ℕ) (s : MHState Order ThetaPhi) : Option ThetaPhi :=
  if alg = algConjugatePriors ∨ alg = algMle then
    some (env.updateThetaPhi (mhNewOrder env i s) s.currentThetaPhi)
  else none

/-- Lines 97–111: `new_ln_likelihood`, computed under the freshly re-estimated
parameters in the conjugate-priors/MLE branch and under `theta_phi_default`
otherwise. -/
noncomputable def mhNewLL {Order ThetaPhi : Type} (alg : String) (env : MHEnv Order ThetaPhi)
    (i : ℕ) (s : MHState Order ThetaPhi) : EReal :=
  match mhNewThetaPhiOpt alg env i s with
  | some t => env.computeLL (mhNewOrder env i s) t
  | none => env.computeLL (mhNewOrder env i s) env.thetaPhiDefault

/-- Line 114: `delta = new_ln_likelihood - current_ln_likelihood`. -/
noncomputable def mhDelta {Order ThetaPhi : Type} (alg : String) (env : MHEnv Order ThetaPhi)
    (i : ℕ) (s : MHState Order ThetaPhi) : EReal :=
  mhNewLL alg env i s - s.currentLL

/-- Line 118: the acceptance test `np.random.rand() < prob_accept`. -/
noncomputable def mhAccepted {Order ThetaPhi : Type} (alg : String) (env : MHEnv Order ThetaPhi)
    (i : ℕ) (s : MHState Order ThetaPhi) : Prop :=
  (env.rand i : EReal) < prob_accept (mhDelta alg env i s)

/-- One iteration of the `for iteration in range(iterations)` loop
(lines 52–126).  The trace appends happen every iteration; the chain state is
replaced only on acceptance, and the parameter set is replaced only when
`algorithm != 'hard_kmeans'` (line 122).  In Python, an accepted proposal for
an algorithm outside `{'hard_kmeans', 'conjugate_priors', 'mle'}` would hit an
unbound `new_theta_phi` (a `NameError`); `Option.getD` keeps the current
parameters in that unreachable-by-contract case. -/
noncomputable def mhStep {Order ThetaPhi : Type} (alg : String) (env : MHEnv Order ThetaPhi)
    (i : ℕ) (s : MHState Order ThetaPhi) : MHState Order ThetaPhi :=
  if (env.rand i : EReal) < prob_accept (mhDelta alg env i s) then
    { currentOrder := mhNewOrder env i s
      currentThetaPhi :=
        if alg ≠ algHardKmeans then
          (mhNewThetaPhiOpt alg env i s).getD s.currentThetaPhi
        else s.currentThetaPhi
      currentLL := mhNewLL alg env i s
      acceptanceCount := s.acceptanceCount + 1
      allAcceptedOrders := s.allAcceptedOrders ++ [mhNewOrder env i s]
      logLikelihoods := s.logLikelihoods ++ [s.currentLL] }
  else
    { s with
      allAcceptedOrders := s.allAcceptedOrders ++ [s.currentOrder]
      logLikelihoods := s.logLikelihoods ++ [s.currentLL] }

/-- Lines 38–50: the state before the loop.  `current_ln_likelihood = -np.inf`
becomes `⊥`. -/
def mhInit {Order ThetaPhi : Type} (env : MHEnv Order ThetaPhi) : MHState Order ThetaPhi :=
  { currentOrder := env.initialOrder
    currentThetaPhi := env.thetaPhiDefault
    currentLL := ⊥
    acceptanceCount := 0
    allAcceptedOrders := []
    logLikelihoods := [] }

/-- The whole loop: fold `mhStep` over `range(iterations)`. -/
noncomputable def mhRun {Order ThetaPhi : Type} (alg : String) (env : MHEnv Order ThetaPhi)
    (iterations : ℕ) : MHState Order ThetaPhi :=
  (List.range iterations).foldl (fun s i => mhStep alg env i s) (mhInit env)

/-- Line 138: `return all_accepted_orders, log_likelihoods` — the function
returns exactly these two components. -/
noncomputable def metropolis_hastings {Order ThetaPhi : Type} (alg : String)
    (env : MHEnv Order ThetaPhi) (iterations : ℕ) : List Order × List EReal :=
  ((mhRun alg env iterations).allAcceptedOrders, (mhRun alg env iterations).logLikelihoods)

/-! Helper lemmas about the loop, shared by several claim theorems. -/

lemma mhStep_logLikelihoods {Order ThetaPhi : Type} (alg : String) (env : MHEnv Order ThetaPhi)
    (i : ℕ) (s : MHState Order ThetaPhi) :
    (mhStep alg env i s).logLikelihoods = s.logLikelihoods ++ [s.currentLL] := by
  unfold mhStep
  split <;> rfl

lemma mhStep_allAcceptedOrders {Order ThetaPhi : Type} (alg : String) (env : MHEnv Order ThetaPhi)
    (i : ℕ) (s : MHState Order ThetaPhi) :
    (mhStep alg env i s).allAcceptedOrders =
      s.allAcceptedOrders ++ [(mhStep alg env i s).currentOrder] := by
  unfold mhStep
  split <;> rfl

lemma mhRun_succ {Order ThetaPhi : Type} (alg : String) (env : MHEnv Order ThetaPhi) (n : ℕ) :
    mhRun alg env (n + 1) = mhStep alg env n (mhRun alg env n) := by
  unfold mhRun
  rw [List.range_succ, List.foldl_append]
  rfl

lemma mhRun_ll_length {Order ThetaPhi : Type} (alg : String) (env : MHEnv Order ThetaPhi)
    (n : ℕ) : (mhRun alg env n).logLikelihoods.length = n := by
  induction n with
  | zero => rfl
  | succ n ih =>
    rw [mhRun_succ, mhStep_logLikelihoods, List.length_append, ih]
    rfl

lemma mhRun_orders_length {Order ThetaPhi : Type} (alg : String) (env : MHEnv Order ThetaPhi)
    (n : ℕ) : (mhRun alg env n).allAcceptedOrders.length = n := by
  induction n with
  | zero => rfl
  | succ n ih =>
    rw [mhRun_succ, mhStep_allAcceptedOrders, List.length_append, ih]
    rfl

lemma mhRun_ll_head {Order ThetaPhi : Type} (alg : String) (env : MHEnv Order ThetaPhi)
    (n : ℕ) (hn : 1 ≤ n) : (mhRun alg env n).logLikelihoods.head? = some ⊥ := by
  induction n with
  | zero => exact absurd hn (by simp)
  | succ n ih =>
    rw [mhRun_succ, mhStep_logLikelihoods]
    rcases Nat.eq_or_lt_of_le hn with h | h
    · have h0 : n = 0 := by omega
      subst h0
      rfl
    · have h1 : 1 ≤ n := by omega
      have hne : (mhRun alg env n).logLikelihoods ≠ [] := by
        intro hnil
        have := mhRun_ll_length alg env n
        rw [hnil] at this
        simp at this
        omega
      rw [List.head?_append_of_ne_nil _ hne]
      exact ih h1

lemma mhStep_of_accepted {Order ThetaPhi : Type} (alg : String) (env : MHEnv Order ThetaPhi)
    (i : ℕ) (s : MHState Order ThetaPhi) (h : mhAccepted alg env i s) :
    (mhStep alg env i s).currentOrder = mhNewOrder env i s ∧
    (mhStep alg env i s).currentLL = mhNewLL alg env i s ∧
    (mhStep alg env i s).acceptanceCount = s.acceptanceCount + 1 ∧
    (mhStep alg env i s).currentThetaPhi =
      (if alg ≠ algHardKmeans then (mhNewThetaPhiOpt alg env i s).getD s.currentThetaPhi
       else s.currentThetaPhi) := by
  unfold mhAccepted at h
  unfold mhStep
  rw [if_pos h]
  exact ⟨rfl, rfl, rfl, rfl⟩

lemma mhAccepted_of_ll_lt {Order ThetaPhi : Type} (alg : String) (env : MHEnv Order ThetaPhi)
    (i : ℕ) (s : MHState Order ThetaPhi) (h1 : env.rand i < 1)
    (hlt : s.currentLL < mhNewLL alg env i s) : mhAccepted alg env i s := by
  unfold mhAccepted
  have hpos : 0 < mhDelta alg env i s := ereal_sub_pos hlt
  rw [prob_accept_of_pos hpos]
  rw [show (1 : EReal) = ((1 : ℝ) : EReal) from rfl]
  exact EReal.coe_lt_coe_iff.mpr h1

/-- A concrete environment used by witnesses: orderings and parameter sets are
natural numbers, every likelihood is the finite value `0`, and every uniform
draw is `1/2`. -/
noncomputable def mhEnvW : MHEnv ℕ ℕ :=
  { thetaPhiDefault := 0
    initialOrder := 0
    shuffleOrder := fun _ o => o + 1
    updateThetaPhi := fun _ t => t + 1
    computeLL := fun _ _ => ((0 : ℝ) : EReal)
    rand := fun _ => 1 / 2 }

lemma mhEnvW_rand_nonneg (i : ℕ) : 0 ≤ mhEnvW.rand i := by norm_num [mhEnvW]

lemma mhEnvW_rand_lt_one (i : ℕ) : mhEnvW.rand i < 1 := by norm_num [mhEnvW]

lemma mhEnvW_newLL (alg : String) (i : ℕ) (s : MHState ℕ ℕ) :
    mhNewLL alg mhEnvW i s = ((0 : ℝ) : EReal) := by
  unfold mhNewLL
  cases h : mhNewThetaPhiOpt alg mhEnvW i s <;> rfl

/-- C1: each iteration computes `prob_accept = 1.0` when
`new_ll - current_ll > 0` and `exp(new_ll - current_ll)` otherwise, accepts
exactly when the uniform draw is strictly below `prob_accept` (so a strictly
better proposal is always accepted, since the draw lies in `[0,1)`), and on
acceptance replaces the current ordering and log-likelihood, replaces the
parameter set for the conjugate-priors/MLE models but not for the
`hard_kmeans` baseline, and increments the acceptance counter. -/
theorem mh_acceptance_rule {Order ThetaPhi : Type} (alg : String) (env : MHEnv Order ThetaPhi)
    (i : ℕ) (s : MHState Order ThetaPhi) (h0 : 0 ≤ env.rand i) (h1 : env.rand i < 1) :
    (0 < mhDelta alg env i s → prob_accept (mhDelta alg env i s) = 1) ∧
    (¬ 0 < mhDelta alg env i s →
      prob_accept (mhDelta alg env i s) = expE (mhDelta alg env i s)) ∧
    (mhAccepted alg env i s ↔ (env.rand i : EReal) < prob_accept (mhDelta alg env i s)) ∧
    (s.currentLL < mhNewLL alg env i s → mhAccepted alg env i s) ∧
    (mhAccepted alg env i s →
      (mhStep alg env i s).currentOrder = mhNewOrder env i s ∧
      (mhStep alg env i s).currentLL = mhNewLL alg env i s ∧
      (mhStep alg env i s).acceptanceCount = s.acceptanceCount + 1 ∧
      ((alg = algConjugatePriors ∨ alg = algMle) →
        (mhStep alg env i s).currentThetaPhi =
          env.updateThetaPhi (mhNewOrder env i s) s.currentThetaPhi) ∧
      (alg = algHardKmeans → (mhStep alg env i s).currentThetaPhi = s.currentThetaPhi)) := by
  refine ⟨fun h => prob_accept_of_pos h, fun h => prob_accept_of_not_pos h, Iff.rfl,
    fun h => mhAccepted_of_ll_lt alg env i s h1 h, fun hacc => ?_⟩
  obtain ⟨ho, hll, hc, ht⟩ := mhStep_of_accepted alg env i s hacc
  refine ⟨ho, hll, hc, fun halg => ?_, fun halg => ?_⟩
  · have hne : alg ≠ algHardKmeans := by
      rcases halg with h | h <;> subst h <;> decide
    rw [ht, if_pos hne]
    unfold mhNewThetaPhiOpt
    rw [if_pos halg]
    rfl
  · subst halg
    rw [ht, if_neg (by simp)]

/-- Concrete instantiation of `mh_acceptance_rule`: with the witness
environment, the first proposal of an `mle` chain (finite likelihood `0`
against the initial `-∞`) is accepted. -/
theorem mh_acceptance_rule_witness : mhAccepted algMle mhEnvW 0 (mhInit mhEnvW) :=
  (mh_acceptance_rule algMle mhEnvW 0 (mhInit mhEnvW) (mhEnvW_rand_nonneg 0)
      (mhEnvW_rand_lt_one 0)).2.2.2.1
    (by rw [mhEnvW_newLL]; exact EReal.bot_lt_coe 0)

/-- C2: the sampler's two traces both have exactly `iterations` entries: each
iteration appends the carried-over pre-decision log-likelihood to
`log_likelihoods` and, after the accept/reject decision, appends the
(possibly-just-updated) current ordering to `all_accepted_orders`. -/
theorem mh_trace_lengths {Order ThetaPhi : Type} (alg : String) (env : MHEnv Order ThetaPhi)
    (N : ℕ) :
    (mhRun alg env N).allAcceptedOrders.length = N ∧
    (mhRun alg env N).logLikelihoods.length = N ∧
    (∀ (i : ℕ) (s : MHState Order ThetaPhi),
      (mhStep alg env i s).logLikelihoods = s.logLikelihoods ++ [s.currentLL] ∧
      (mhStep alg env i s).allAcceptedOrders =
        s.allAcceptedOrders ++ [(mhStep alg env i s).currentOrder]) :=
  ⟨mhRun_orders_length alg env N, mhRun_ll_length alg env N,
    fun i s => ⟨mhStep_logLikelihoods alg env i s, mhStep_allAcceptedOrders alg env i s⟩⟩

/-- C3 (divergence record): line 138 of `algorithm.py` returns exactly the
pair `(all_accepted_orders, log_likelihoods)` — a two-part result, not the
four-part result (traces, final parameter set, final stage posterior) that
`run.py` line 108 unpacks and that the specification describes. -/
theorem mh_returns_two_traces {Order ThetaPhi : Type} (alg : String)
    (env : MHEnv Order ThetaPhi) (N : ℕ) :
    metropolis_hastings alg env N =
      ((mhRun alg env N).allAcceptedOrders, (mhRun alg env N).logLikelihoods) ∧
    (metropolis_hastings alg env N).1.length = N ∧
    (metropolis_hastings alg env N).2.length = N :=
  ⟨rfl, mhRun_orders_length alg env N, mhRun_ll_length alg env N⟩

/-- C10: the loop starts from `current_ln_likelihood = -np.inf`, so any run of
at least one iteration records `-∞` as the first entry of the log-likelihood
trace, and the first proposal is accepted (incrementing the counter from 0 to
1) whenever its computed log-likelihood is finite. -/
theorem mh_first_iteration {Order ThetaPhi : Type} (alg : String) (env : MHEnv Order ThetaPhi)
    (N : ℕ) (hN : 1 ≤ N) (r : ℝ) (hfin : mhNewLL alg env 0 (mhInit env) = (r : EReal))
    (h0 : 0 ≤ env.rand 0) (h1 : env.rand 0 < 1) :
    (mhInit env).currentLL = ⊥ ∧
    (mhRun alg env N).logLikelihoods.head? = some ⊥ ∧
    mhAccepted alg env 0 (mhInit env) ∧
    (mhStep alg env 0 (mhInit env)).acceptanceCount = 1 := by
  have hacc : mhAccepted alg env 0 (mhInit env) := by
    refine mhAccepted_of_ll_lt alg env 0 (mhInit env) h1 ?_
    rw [hfin]
    exact EReal.bot_lt_coe r
  refine ⟨rfl, mhRun_ll_head alg env N hN, hacc, ?_⟩
  rw [(mhStep_of_accepted alg env 0 (mhInit env) hacc).2.2.1]
  rfl

/-- Concrete instantiation of `mh_first_iteration` at three iterations of the
witness environment. -/
theorem mh_first_iteration_witness :
    (mhInit mhEnvW).currentLL = ⊥ ∧
    (mhRun algMle mhEnvW 3).logLikelihoods.head? = some ⊥ ∧
    mhAccepted algMle mhEnvW 0 (mhInit mhEnvW) ∧
    (mhStep algMle mhEnvW 0 (mhInit mhEnvW)).acceptanceCount = 1 :=
  mh_first_iteration algMle mhEnvW 3 (by norm_num) 0 (mhEnvW_newLL algMle 0 (mhInit mhEnvW))
    (mhEnvW_rand_nonneg 0) (mhEnvW_rand_lt_one 0)

/-! ### Fast kernel density estimation (`fast_kde.py`)

Machine floats are modelled as reals; `np.ndarray` values become lists. -/

/-- Line 10: `EPSILON = 1e-10`. -/
noncomputable def EPSILON : ℝ := 1e-10

/-- Line 11: `SQRT_2PI = 0.3989422804014327` (the source stores the float
constant `1/sqrt(2*pi)` literally). -/
noncomputable def SQRT_2PI : ℝ := 0.3989422804014327

/-- Lines 13–27: the Gaussian kernel
`u = (x - xi)/bandwidth; SQRT_2PI * exp(-0.5*u*u) / bandwidth`. -/
noncomputable def gaussian_kernel (x xi bandwidth : ℝ) : ℝ :=
  let u := (x - xi) / bandwidth
  SQRT_2PI * Real.exp (-0.5 * u * u) / bandwidth

/-- Lines 29–46: `weighted_kde_evaluate`, the weighted kernel sum
`Σ_i weights[i] * gaussian_kernel(x, samples[i], bandwidth)`.  The `prange`
parallel loop is a sequential sum in exact arithmetic. -/
noncomputable def weighted_kde_evaluate (x : ℝ) (samples weights : List ℝ)
    (bandwidth : ℝ) : ℝ :=
  (List.zipWith (fun xi w => w * gaussian_kernel x xi bandwidth) samples weights).sum

/-- The state of a `FastKDE` instance after `__init__`: flattened sample
points, per-sample weights and the bandwidth.  The `cKDTree` over `data` is
determined by `data` and is represented by `ballIndices` below; the mutable
evaluation cache is passed explicitly to `FastKDE.evaluate`. -/
structure FastKDE where
  data : List ℝ
  weights : List ℝ
  bandwidth : ℝ

instance : Inhabited FastKDE := ⟨⟨[], [], 0⟩⟩

/-- `np.mean` of a list. -/
noncomputable def npMean (xs : List ℝ) : ℝ := xs.sum / xs.length

/-- `np.std` of a list (population standard deviation). -/
noncomputable def npStd (xs : List ℝ) : ℝ :=
  Real.sqrt ((xs.map (fun x => (x - npMean xs) ^ 2)).sum / xs.length)

/-- Lines 79–115: the `FastKDE` constructor.  `weights = None` gives uniform
ones; a positive weight sum is normalised to 1; `bandwidth = None` models the
`'silverman'` default `max(std, 1e-6) * (4/(3n))^(1/5)`, and an explicit
float bandwidth is floored at `1e-6`. -/
noncomputable def FastKDE.ofData (data : List ℝ) (weights : Option (List ℝ))
    (bandwidth : Option ℝ) : FastKDE :=
  let ws0 := match weights with
    | none => List.replicate data.length 1
    | some w => w
  let ws := if 0 < ws0.sum then ws0.map (fun w => w / ws0.sum) else ws0
  let bw := match bandwidth with
    | none => max (npStd data) 1e-6 * (4 / (3 * (data.length : ℝ))) ^ ((1 : ℝ) / 5)
    | some b => max b 1e-6
  ⟨data, ws, bw⟩

/-- Line 139/159: `self.tree.query_ball_point(x, 3 * self.bandwidth)` — the
indices of sample points within three bandwidths of `x`. -/
noncomputable def ballIndices (k : FastKDE) (x : ℝ) : List ℕ :=
  (List.range k.data.length).filter (fun i => |k.data.getD i 0 - x| ≤ 3 * k.bandwidth)

/-- The per-point density both batching strategies compute: the weighted
kernel sum restricted to the neighbours within three bandwidths, or `0` when
no neighbour is in range (`results[i]` keeps its `np.zeros` value). -/
noncomputable def kdeEvalPoint (k : FastKDE) (x : ℝ) : ℝ :=
  let indices := ballIndices k x
  if indices = [] then 0
  else
    weighted_kde_evaluate x (indices.map (fun i => k.data.getD i 0))
      (indices.map (fun i => k.weights.getD i 0)) k.bandwidth

/-- Membership test `x in self._cache` / read `self._cache[x]`. -/
noncomputable def lookupCache (cache : List (ℝ × ℝ)) (x : ℝ) : Option ℝ :=
  (cache.find? (fun p => decide (p.1 = x))).map (fun p => p.2)

/-- Lines 131–150: the small-point-set path of `FastKDE.evaluate` — process
points one at a time, consulting the memoisation cache first and inserting
newly computed densities while the cache holds fewer than 1000 entries.
Returns the results together with the final cache state. -/
noncomputable def evalSmallAux (k : FastKDE) : List ℝ → List (ℝ × ℝ) → List ℝ × List (ℝ × ℝ)
  | [], cache => ([], cache)
  | x :: rest, cache =>
    match lookupCache cache x with
    | some v =>
      let out := evalSmallAux k rest cache
      (v :: out.1, out.2)
    | none =>
      let indices := ballIndices k x
      if indices = [] then
        let out := evalSmallAux k rest cache
        (0 :: out.1, out.2)
      else
        let r := weighted_kde_evaluate x (indices.map (fun i => k.data.getD i 0))
          (indices.map (fun i => k.weights.getD i 0)) k.bandwidth
        let cache2 := if cache.length < 1000 then cache ++ [(x, r)] else cache
        let out := evalSmallAux k rest cache2
        (r :: out.1, out.2)

/-- Lines 151–163: the large-point-set path — the points are processed in
chunks of `chunk_size = 1000`, each point evaluated against its ball
neighbours, with no cache interaction. -/
noncomputable def evalLarge (k : FastKDE) (points : List ℝ) : List ℝ :=
  match points with
  | [] => []
  | x :: rest =>
    (((x :: rest).take 1000).map (fun y => kdeEvalPoint k y)) ++
      evalLarge k ((x :: rest).drop 1000)
termination_by points.length
decreasing_by
  simp only [List.length_drop, List.length_cons]
  omega

/-- Lines 117–165: `FastKDE.evaluate` — dispatch on `len(points) <= 10`
between the memoised one-at-a-time path and the chunked path.  The cache is
threaded explicitly (the chunked path never touches it). -/
noncomputable def FastKDE.evaluate (k : FastKDE) (points : List ℝ)
    (cache : List (ℝ × ℝ)) : List ℝ × List (ℝ × ℝ) :=
  if points.length ≤ 10 then evalSmallAux k points cache
  else (evalLarge k points, cache)

/-- A cache state is valid for `k` when every memoised entry stores exactly
the density `kdeEvalPoint k x`; a fresh instance's empty cache is valid, and
every insertion made by `evaluate` preserves validity. -/
def cacheValid (k : FastKDE) (cache : List (ℝ × ℝ)) : Prop :=
  ∀ x v, lookupCache cache x = some v → v = kdeEvalPoint k x

lemma cacheValid_nil (k : FastKDE) : cacheValid k [] := by
  intro x v h
  simp [lookupCache] at h

lemma cacheValid_append (k : FastKDE) (cache : List (ℝ × ℝ)) (x : ℝ)
    (h : cacheValid k cache) :
    cacheValid k (cache ++ [(x, kdeEvalPoint k x)]) := by
  intro y v hv
  unfold lookupCache at hv
  rw [List.find?_append] at hv
  cases hfind : cache.find? (fun p => decide (p.1 = y)) with
  | some p =>
    rw [hfind] at hv
    simp at hv
    exact h y v (by unfold lookupCache; rw [hfind]; simp [hv])
  | none =>
    rw [hfind] at hv
    by_cases hxy : x = y
    · subst hxy
      simp at hv
      exact hv.symm
    · simp [hxy] at hv

lemma kdeEvalPoint_of_empty (k : FastKDE) (x : ℝ) (hi : ballIndices k x = []) :
    kdeEvalPoint k x = 0 := by
  simp [kdeEvalPoint, hi]

lemma kdeEvalPoint_of_ne (k : FastKDE) (x : ℝ) (hi : ¬ ballIndices k x = []) :
    kdeEvalPoint k x =
      weighted_kde_evaluate x ((ballIndices k x).map (fun i => k.data.getD i 0))
        ((ballIndices k x).map (fun i => k.weights.getD i 0)) k.bandwidth := by
  simp [kdeEvalPoint, hi]

lemma evalSmall_spec (k : FastKDE) :
    ∀ (pts : List ℝ) (cache : List (ℝ × ℝ)), cacheValid k cache →
      (evalSmallAux k pts cache).1 = pts.map (kdeEvalPoint k) := by
  intro pts
  induction pts with
  | nil => intro cache _; rfl
  | cons x rest ih =>
    intro cache h
    simp only [evalSmallAux, List.map_cons]
    cases hl : lookupCache cache x with
    | some v =>
      simp only
      rw [ih cache h, h x v hl]
    | none =>
      simp only
      by_cases hi : ballIndices k x = []
      · rw [if_pos hi]
        simp only
        rw [ih cache h, kdeEvalPoint_of_empty k x hi]
      · rw [if_neg hi]
        simp only
        have h2 : cacheValid k
            (if cache.length < 1000 then
              cache ++ [(x, weighted_kde_evaluate x
                ((ballIndices k x).map (fun i => k.data.getD i 0))
                ((ballIndices k x).map (fun i => k.weights.getD i 0)) k.bandwidth)]
            else cache) := by
          split
          · rw [← kdeEvalPoint_of_ne k x hi]
            exact cacheValid_append k cache x h
          · exact h
        rw [ih _ h2, kdeEvalPoint_of_ne k x hi]

lemma evalLarge_spec (k : FastKDE) :
    ∀ (n : ℕ) (pts : List ℝ), pts.length ≤ n →
      evalLarge k pts = pts.map (kdeEvalPoint k) := by
  intro n
  induction n with
  | zero =>
    intro pts hlen
    have hnil : pts = [] := List.length_eq_zero.mp (Nat.le_zero.mp hlen)
    subst hnil
    rw [evalLarge]
    rfl
  | succ n ih =>
    intro pts hlen
    cases pts with
    | nil =>
      rw [evalLarge]
      rfl
    | cons x rest =>
      rw [evalLarge]
      have hdrop : ((x :: rest).drop 1000).length ≤ n := by
        simp only [List.length_drop, List.length_cons]
        simp only [List.length_cons] at hlen
        omega
      rw [ih _ hdrop, ← List.map_append, List.take_append_drop]

/-- C9: for every KDE instance and point sequence (under a valid memoisation
cache — the invariant every reachable cache satisfies, the fresh empty cache
included), the one-at-a-time memoised path and the chunked path both return
exactly the pointwise densities, hence identical results; the `len(points)`
dispatch in `evaluate` is a performance policy that never changes the
returned values. -/
theorem kde_evaluate_batching (k : FastKDE) (pts : List ℝ) (cache : List (ℝ × ℝ))
    (h : cacheValid k cache) :
    (evalSmallAux k pts cache).1 = pts.map (kdeEvalPoint k) ∧
    evalLarge k pts = pts.map (kdeEvalPoint k) ∧
    (FastKDE.evaluate k pts cache).1 = (evalSmallAux k pts cache).1 := by
  refine ⟨evalSmall_spec k pts cache h, evalLarge_spec k pts.length pts le_rfl, ?_⟩
  unfold FastKDE.evaluate
  split
  · rfl
  · rw [evalLarge_spec k pts.length pts le_rfl, evalSmall_spec k pts cache h]

/-- Concrete instantiation of `kde_evaluate_batching`: a two-sample KDE
evaluated at two points starting from the empty cache of a fresh instance. -/
theorem kde_evaluate_batching_witness :
    (evalSmallAux ⟨[0, 1], [1 / 2, 1 / 2], 1⟩ [0, 2] []).1 =
      [0, 2].map (kdeEvalPoint ⟨[0, 1], [1 / 2, 1 / 2], 1⟩) ∧
    evalLarge ⟨[0, 1], [1 / 2, 1 / 2], 1⟩ [0, 2] =
      [0, 2].map (kdeEvalPoint ⟨[0, 1], [1 / 2, 1 / 2], 1⟩) ∧
    (FastKDE.evaluate ⟨[0, 1], [1 / 2, 1 / 2], 1⟩ [0, 2] []).1 =
      (evalSmallAux ⟨[0, 1], [1 / 2, 1 / 2], 1⟩ [0, 2] []).1 :=
  kde_evaluate_batching ⟨[0, 1], [1 / 2, 1 / 2], 1⟩ [0, 2] []
    (cacheValid_nil ⟨[0, 1], [1 / 2, 1 / 2], 1⟩)

/-! ### Batched KDE likelihood (`_compute_kde_logpdf`,
`compute_ln_likelihood_kde_fast`) -/

/-- Lines 228–232 of `fast_kde.py`: the inner kernel sum of
`_compute_kde_logpdf`, which walks a padded row and stops at the first sample
value equal to exactly `0` (`if data[j] == 0: break`). -/
noncomputable def sentinelSum (x bw : ℝ) : List ℝ → List ℝ → ℝ
  | [], _ => 0
  | _ :: _, [] => 0
  | d :: ds, w :: ws =>
    if d = 0 then 0 else w * gaussian_kernel x d bw + sentinelSum x bw ds ws

/-- Lines 234–238: the numerical floor — add `log(EPSILON)` instead of
`log(pdf)` whenever `pdf < EPSILON`. -/
noncomputable def flooredLog (pdf : ℝ) : ℝ :=
  if pdf < EPSILON then Real.log EPSILON else Real.log pdf

/-- One row of the pre-allocated `np.zeros((…, max_data_size))` matrices after
`kde_data[row, :data_size] = …`: the payload followed by zero padding. -/
noncomputable def padRow (xs : List ℝ) (maxLen : ℕ) : List ℝ :=
  xs ++ List.replicate (maxLen - xs.length) 0

/-- A `kde_dict[biomarker]` entry (see `get_initial_kde_estimates`,
lines 348–353): the two KDEs and the two EM weight vectors. -/
structure KDEEntry where
  theta_kde : FastKDE
  theta_weights : List ℝ
  phi_kde : FastKDE
  phi_weights : List ℝ

instance : Inhabited KDEEntry := ⟨⟨default, [], default, []⟩⟩

/-- Lines 272–273: `max_data_size`, the maximum of all theta sample counts
maxed with the maximum of all phi sample counts (folds start at 0 where
Python's `max` would demand a non-empty dict). -/
def maxDataSize (kdes : List KDEEntry) : ℕ :=
  max ((kdes.map (fun e => e.theta_kde.data.length)).foldl max 0)
      ((kdes.map (fun e => e.phi_kde.data.length)).foldl max 0)

/-- Lines 276–293: the `kde_data` matrix — for biomarker index `i`, row `2i`
holds the padded theta samples and row `2i+1` the padded phi samples. -/
noncomputable def fillKdeData (kdes : List KDEEntry) (maxLen : ℕ) : List (List ℝ) :=
  kdes.flatMap (fun e => [padRow e.theta_kde.data maxLen, padRow e.phi_kde.data maxLen])

/-- Lines 276–293: the `kde_weights` matrix, laid out like `fillKdeData`. -/
noncomputable def fillKdeWeights (kdes : List KDEEntry) (maxLen : ℕ) : List (List ℝ) :=
  kdes.flatMap (fun e => [padRow e.theta_kde.weights maxLen, padRow e.phi_kde.weights maxLen])

/-- Lines 213–240: `_compute_kde_logpdf`.  For measurement `i` the row
`idx*2 + (0 if stage else 1)` is selected (theta when the stage indicator is
set, phi otherwise), its sentinel-terminated kernel sum is computed with the
biomarker's bandwidth, and the floored log joins the running total. -/
noncomputable def kdeLogpdfTerm (measurements : List ℝ) (stages : List Bool)
    (bioIndices : List ℕ) (kdeData kdeWeights : List (List ℝ))
    (bandwidths : List ℝ) (i : ℕ) : ℝ :=
  let idx := bioIndices.getD i 0
  let x := measurements.getD i 0
  let stage := stages.getD i false
  let row := idx * 2 + (if stage then 0 else 1)
  let pdf := sentinelSum x (bandwidths.getD idx 0)
    (kdeData.getD row []) (kdeWeights.getD row [])
  flooredLog pdf

noncomputable def computeKdeLogpdf (measurements : List ℝ) (stages : List Bool)
    (bioIndices : List ℕ) (kdeData kdeWeights : List (List ℝ))
    (bandwidths : List ℝ) : ℝ :=
  (List.range measurements.length).foldl (fun total i =>
    total + kdeLogpdfTerm measurements stages bioIndices kdeData kdeWeights bandwidths i) 0

/-- Lines 243–306: `compute_ln_likelihood_kde_fast`.  The stage indicators are
`(k_j >= S_n)`; biomarker labels are taken as already-contiguous indices into
`kdes` (the `np.unique`/`bio_to_idx` relabelling is a bijective renaming);
`bandwidths[i]` is the *theta* KDE's bandwidth (line 296), also used for phi
rows. -/
noncomputable def compute_ln_likelihood_kde_fast (measurements : List ℝ) (S_n : ℕ)
    (bioIndices : List ℕ) (k_j : List ℕ) (kdes : List KDEEntry) : ℝ :=
  let stages := k_j.map (fun k => decide (S_n ≤ k))
  let maxLen := maxDataSize kdes
  computeKdeLogpdf measurements stages bioIndices
    (fillKdeData kdes maxLen) (fillKdeWeights kdes maxLen)
    (kdes.map (fun e => e.theta_kde.bandwidth))

lemma sentinel_takeWhile (x bw : ℝ) :
    ∀ (d w : List ℝ), sentinelSum x bw d w =
      weighted_kde_evaluate x (d.takeWhile (fun v => decide (v ≠ 0)))
        (w.take (d.takeWhile (fun v => decide (v ≠ 0))).length) bw := by
  intro d
  induction d with
  | nil => intro w; simp [sentinelSum, weighted_kde_evaluate]
  | cons dh dt ih =>
    intro w
    cases w with
    | nil =>
      rw [sentinelSum]
      simp [weighted_kde_evaluate]
    | cons wh wt =>
      by_cases h0 : dh = 0
      · subst h0
        rw [sentinelSum, if_pos rfl]
        simp [weighted_kde_evaluate]
      · rw [sentinelSum, if_neg h0]
        rw [List.takeWhile_cons_of_pos (by simpa using h0)]
        simp only [List.length_cons, List.take_succ_cons]
        rw [ih wt]
        simp [weighted_kde_evaluate]

lemma sentinel_pad (x bw : ℝ) :
    ∀ (data weights : List ℝ) (maxLen : ℕ), (0 : ℝ) ∉ data →
      weights.length = data.length →
      sentinelSum x bw (padRow data maxLen) (padRow weights maxLen) =
        weighted_kde_evaluate x data weights bw := by
  intro data
  induction data with
  | nil =>
    intro weights maxLen hz hlen
    have hw : weights = [] := List.length_eq_zero.mp (by simpa using hlen)
    subst hw
    unfold padRow
    cases maxLen with
    | zero => simp [sentinelSum, weighted_kde_evaluate]
    | succ n =>
      simp only [List.nil_append, List.length_nil, Nat.sub_zero, List.replicate_succ]
      rw [sentinelSum, if_pos rfl]
      simp [weighted_kde_evaluate]
  | cons d dt ih =>
    intro weights maxLen hz hlen
    cases weights with
    | nil => simp at hlen
    | cons wh wt =>
      have hd0 : d ≠ 0 := fun h => hz (by rw [← h]; exact List.mem_cons_self d dt)
      have hlen2 : wt.length = dt.length := by simpa using hlen
      unfold padRow
      simp only [List.cons_append, List.length_cons]
      rw [sentinelSum, if_neg hd0]
      have ed : dt ++ List.replicate (maxLen - (dt.length + 1)) (0 : ℝ) =
          padRow dt (maxLen - 1) := by
        unfold padRow
        congr 2
        omega
      have ew : wt ++ List.replicate (maxLen - (wt.length + 1)) (0 : ℝ) =
          padRow wt (maxLen - 1) := by
        unfold padRow
        congr 2
        omega
      rw [ed, ew, ih wt (maxLen - 1) (fun hm => hz (List.mem_cons_of_mem d hm)) hlen2]
      simp [weighted_kde_evaluate]

/-- C6: padded rows are terminated by the zero sentinel, not a length field:
for a biomarker whose samples never equal `0`, the padded row's sentinel sum
is the full weighted kernel sum over all of its samples, and in general the
sentinel sum covers exactly the samples strictly before the first zero
(everything at or after a zero sample is excluded). -/
theorem kde_padding_sentinel (x bw : ℝ) (data weights : List ℝ) (maxLen : ℕ)
    (hz : (0 : ℝ) ∉ data) (hlen : weights.length = data.length) :
    sentinelSum x bw (padRow data maxLen) (padRow weights maxLen) =
      weighted_kde_evaluate x data weights bw ∧
    (∀ d w : List ℝ, sentinelSum x bw d w =
      weighted_kde_evaluate x (d.takeWhile (fun v => decide (v ≠ 0)))
        (w.take (d.takeWhile (fun v => decide (v ≠ 0))).length) bw) :=
  ⟨sentinel_pad x bw data weights maxLen hz hlen, sentinel_takeWhile x bw⟩

/-- Concrete instantiation of `kde_padding_sentinel`: a zero-free two-sample
row padded to width 4. -/
theorem kde_padding_sentinel_witness :
    sentinelSum 1 1 (padRow [2, 3] 4) (padRow [1 / 2, 1 / 2] 4) =
      weighted_kde_evaluate 1 [2, 3] [1 / 2, 1 / 2] 1 :=
  (kde_padding_sentinel 1 1 [2, 3] [1 / 2, 1 / 2] 4
    (by norm_num [List.mem_cons]) rfl).1

lemma getD_map_of_lt {α β : Type} (f : α → β) (d1 : α) (d2 : β) :
    ∀ (l : List α) (i : ℕ), i < l.length → (l.map f).getD i d2 = f (l.getD i d1) := by
  intro l
  induction l with
  | nil => intro i hi; simp at hi
  | cons a t ih =>
    intro i hi
    cases i with
    | zero => rfl
    | succ j =>
      simp only [List.map_cons, List.getD_cons_succ]
      exact ih j (by simpa using hi)

lemma flatMap_pair_getD (f g : KDEEntry → List ℝ) :
    ∀ (kdes : List KDEEntry) (idx : ℕ), idx < kdes.length →
      ((kdes.flatMap (fun e => [f e, g e])).getD (idx * 2) [] =
        f (kdes.getD idx default)) ∧
      ((kdes.flatMap (fun e => [f e, g e])).getD (idx * 2 + 1) [] =
        g (kdes.getD idx default)) := by
  intro kdes
  induction kdes with
  | nil => intro idx h; simp at h
  | cons e rest ih =>
    intro idx h
    cases idx with
    | zero => exact ⟨rfl, rfl⟩
    | succ j =>
      have hj : j < rest.length := by simpa using h
      have e2 : (j + 1) * 2 = j * 2 + 1 + 1 := by ring
      have hcons : (e :: rest).flatMap (fun e => [f e, g e]) =
          f e :: g e :: rest.flatMap (fun e => [f e, g e]) := rfl
      rw [e2, hcons]
      simp only [List.getD_cons_succ, List.getD_cons_zero]
      exact ⟨(ih j hj).1, (ih j hj).2⟩

/-- The density `_compute_kde_logpdf` computes for one measurement, expressed
through the `kde_dict` entry it came from: the sentinel sum over the padded
samples/weights of the theta KDE when `S_n ≤ k_j` and of the phi KDE
otherwise, always with the theta KDE's bandwidth (line 296). -/
noncomputable def paddedMeasurementDensity (S_n : ℕ) (kdes : List KDEEntry)
    (maxLen : ℕ) (x : ℝ) (bio kj : ℕ) : ℝ :=
  let e := kdes.getD bio default
  let kde := if S_n ≤ kj then e.theta_kde else e.phi_kde
  sentinelSum x e.theta_kde.bandwidth (padRow kde.data maxLen) (padRow kde.weights maxLen)

lemma foldl_add_eq_sum (f : ℕ → ℝ) :
    ∀ (l : List ℕ) (a : ℝ), l.foldl (fun t i => t + f i) a = a + (l.map f).sum := by
  intro l
  induction l with
  | nil => intro a; simp
  | cons b t ih =>
    intro a
    simp only [List.foldl_cons, List.map_cons, List.sum_cons]
    rw [ih]
    ring

lemma epsilon_pos : 0 < EPSILON := by norm_num [EPSILON]

lemma flooredLog_ge (v : ℝ) : Real.log EPSILON ≤ flooredLog v := by
  unfold flooredLog
  split
  · exact le_rfl
  · next h => exact Real.log_le_log epsilon_pos (le_of_not_lt h)

lemma sum_ge_card_mul (c : ℝ) :
    ∀ (l : List ℝ), (∀ v ∈ l, c ≤ v) → (l.length : ℝ) * c ≤ l.sum := by
  intro l
  induction l with
  | nil => intro _; simp
  | cons v t ih =>
    intro h
    have h1 : c ≤ v := h v (List.mem_cons_self v t)
    have h2 : (t.length : ℝ) * c ≤ t.sum := ih (fun w hw => h w (List.mem_cons_of_mem v hw))
    simp only [List.length_cons, List.sum_cons]
    push_cast
    linarith

lemma kdeLogpdfTerm_unfold (ms : List ℝ) (stages : List Bool) (bios : List ℕ)
    (kdeData kdeWeights : List (List ℝ)) (bws : List ℝ) (i : ℕ) :
    kdeLogpdfTerm ms stages bios kdeData kdeWeights bws i =
      flooredLog (sentinelSum (ms.getD i 0) (bws.getD (bios.getD i 0) 0)
        (kdeData.getD (bios.getD i 0 * 2 + (if stages.getD i false then 0 else 1)) [])
        (kdeWeights.getD (bios.getD i 0 * 2 + (if stages.getD i false then 0 else 1)) [])) :=
  rfl

lemma computeKdeLogpdf_eq_sum (ms : List ℝ) (stages : List Bool) (bios : List ℕ)
    (kdeData kdeWeights : List (List ℝ)) (bws : List ℝ) :
    computeKdeLogpdf ms stages bios kdeData kdeWeights bws =
      ((List.range ms.length).map
        (fun i => kdeLogpdfTerm ms stages bios kdeData kdeWeights bws i)).sum := by
  unfold computeKdeLogpdf
  rw [foldl_add_eq_sum]
  rw [zero_add]

/-- C7: the batched evaluator sums, over all measurements, the floored log of
the per-measurement density taken from the theta KDE when the stage indicator
`k_j >= S_n` holds (the assumed disease stage reaches the biomarker's assigned
stage) and from the phi KDE otherwise; and because of the `log(EPSILON)`
floor the total is bounded below by `n·log(EPSILON)`, never `-∞`. -/
theorem kde_theta_phi_selection (ms : List ℝ) (S_n : ℕ) (bios k_j : List ℕ)
    (kdes : List KDEEntry) (hk : k_j.length = ms.length)
    (hbio : ∀ i, i < ms.length → bios.getD i 0 < kdes.length) :
    compute_ln_likelihood_kde_fast ms S_n bios k_j kdes =
      ((List.range ms.length).map (fun i =>
        flooredLog (paddedMeasurementDensity S_n kdes (maxDataSize kdes)
          (ms.getD i 0) (bios.getD i 0) (k_j.getD i 0)))).sum ∧
    (ms.length : ℝ) * Real.log EPSILON ≤
      compute_ln_likelihood_kde_fast ms S_n bios k_j kdes := by
  have hmain : compute_ln_likelihood_kde_fast ms S_n bios k_j kdes =
      ((List.range ms.length).map (fun i =>
        flooredLog (paddedMeasurementDensity S_n kdes (maxDataSize kdes)
          (ms.getD i 0) (bios.getD i 0) (k_j.getD i 0)))).sum := by
    show computeKdeLogpdf ms (k_j.map (fun k => decide (S_n ≤ k))) bios
        (fillKdeData kdes (maxDataSize kdes)) (fillKdeWeights kdes (maxDataSize kdes))
        (kdes.map (fun e => e.theta_kde.bandwidth)) = _
    rw [computeKdeLogpdf_eq_sum]
    refine congrArg List.sum (List.map_congr_left ?_)
    intro i hi
    have hi2 : i < ms.length := List.mem_range.mp hi
    have hidx : bios.getD i 0 < kdes.length := hbio i hi2
    rw [kdeLogpdfTerm_unfold]
    have hstage : (k_j.map (fun k => decide (S_n ≤ k))).getD i false =
        decide (S_n ≤ k_j.getD i 0) :=
      getD_map_of_lt (fun k => decide (S_n ≤ k)) 0 false k_j i (by omega)
    have hbw : (kdes.map (fun e => e.theta_kde.bandwidth)).getD (bios.getD i 0) 0 =
        (kdes.getD (bios.getD i 0) default).theta_kde.bandwidth :=
      getD_map_of_lt (fun e => e.theta_kde.bandwidth) default 0 kdes (bios.getD i 0) hidx
    have hth := flatMap_pair_getD (fun e => padRow e.theta_kde.data (maxDataSize kdes))
      (fun e => padRow e.phi_kde.data (maxDataSize kdes)) kdes (bios.getD i 0) hidx
    have hwt := flatMap_pair_getD (fun e => padRow e.theta_kde.weights (maxDataSize kdes))
      (fun e => padRow e.phi_kde.weights (maxDataSize kdes)) kdes (bios.getD i 0) hidx
    rw [hstage, hbw]
    unfold paddedMeasurementDensity
    by_cases hsel : S_n ≤ k_j.getD i 0
    · rw [decide_eq_true hsel]
      simp only [if_true, Nat.add_zero]
      show flooredLog (sentinelSum (ms.getD i 0) _
        ((fillKdeData kdes (maxDataSize kdes)).getD (bios.getD i 0 * 2) [])
        ((fillKdeWeights kdes (maxDataSize kdes)).getD (bios.getD i 0 * 2) [])) = _
      unfold fillKdeData fillKdeWeights
      rw [hth.1, hwt.1]
      rw [if_pos hsel]
    · rw [decide_eq_false hsel]
      simp only [Bool.false_eq_true, if_false]
      show flooredLog (sentinelSum (ms.getD i 0) _
        ((fillKdeData kdes (maxDataSize kdes)).getD (bios.getD i 0 * 2 + 1) [])
        ((fillKdeWeights kdes (maxDataSize kdes)).getD (bios.getD i 0 * 2 + 1) [])) = _
      unfold fillKdeData fillKdeWeights
      rw [hth.2, hwt.2]
      rw [if_neg hsel]
  refine ⟨hmain, ?_⟩
  rw [hmain]
  have hlen : ((List.range ms.length).map (fun i =>
      flooredLog (paddedMeasurementDensity S_n kdes (maxDataSize kdes)
        (ms.getD i 0) (bios.getD i 0) (k_j.getD i 0)))).length = ms.length := by
    simp
  have hbound := sum_ge_card_mul (Real.log EPSILON)
    ((List.range ms.length).map (fun i =>
      flooredLog (paddedMeasurementDensity S_n kdes (maxDataSize kdes)
        (ms.getD i 0) (bios.getD i 0) (k_j.getD i 0))))
    (by
      intro v hv
      obtain ⟨j, _, rfl⟩ := List.mem_map.mp hv
      exact flooredLog_ge _)
  rw [hlen] at hbound
  exact hbound

/-- A concrete `kde_dict` entry used by witnesses. -/
noncomputable def kdeEntryW : KDEEntry := ⟨⟨[2], [1], 1⟩, [1], ⟨[3], [1], 1⟩, [1]⟩

/-- Concrete instantiation of `kde_theta_phi_selection`: one measurement of
one biomarker with `k_j = S_n = 1` (theta side selected). -/
theorem kde_theta_phi_selection_witness :
    compute_ln_likelihood_kde_fast [1] 1 [0] [1] [kdeEntryW] =
      ((List.range (List.length ([1] : List ℝ))).map (fun i =>
        flooredLog (paddedMeasurementDensity 1 [kdeEntryW] (maxDataSize [kdeEntryW])
          (([1] : List ℝ).getD i 0) (([0] : List ℕ).getD i 0)
          (([1] : List ℕ).getD i 0)))).sum :=
  (kde_theta_phi_selection [1] 1 [0] [1] [kdeEntryW] rfl
    (by
      intro i hi
      have h0 : i = 0 := Nat.lt_one_iff.mp (by simpa using hi)
      subst h0
      decide)).1

/-! ### EM weight update (`update_kde_for_biomarker_em`, lines 357–429) -/

/-- Line 397: `np.sum(probs[disease_stages >= curr_order])` — the posterior
mass on stages at or above the biomarker's assigned stage (`probs` and
`disease_stages` are parallel arrays). -/
noncomputable def maskSumGe (probs : List ℝ) (stages : List ℕ) (currOrder : ℕ) : ℝ :=
  (List.zipWith (fun pr st => if currOrder ≤ st then pr else 0) probs stages).sum

/-- Line 398: `np.sum(probs[disease_stages < curr_order])`. -/
noncomputable def maskSumLt (probs : List ℝ) (stages : List ℕ) (currOrder : ℕ) : ℝ :=
  (List.zipWith (fun pr st => if st < currOrder then pr else 0) probs stages).sum

/-- Lines 386–398: the raw (pre-normalisation) theta weights — `0` for a
non-diseased participant, the `>= curr_order` posterior mass for a diseased
one. -/
noncomputable def rawThetaWeights (participants : List ℕ) (diseased : List Bool)
    (stagePost : ℕ → List ℝ) (diseaseStages : List ℕ) (currOrder : ℕ) : List ℝ :=
  (participants.zip diseased).map (fun pd =>
    if pd.2 then maskSumGe (stagePost pd.1) diseaseStages currOrder else 0)

/-- Lines 386–398: the raw phi weights — `1` for a non-diseased participant,
the `< curr_order` posterior mass for a diseased one. -/
noncomputable def rawPhiWeights (participants : List ℕ) (diseased : List Bool)
    (stagePost : ℕ → List ℝ) (diseaseStages : List ℕ) (currOrder : ℕ) : List ℝ :=
  (participants.zip diseased).map (fun pd =>
    if pd.2 then maskSumLt (stagePost pd.1) diseaseStages currOrder else 1)

/-- Lines 400–411: normalise a weight vector to sum to 1 when its sum is
positive; otherwise substitute the uniform vector
`np.ones_like(w)/len(w)`. -/
noncomputable def normalizeOrUniform (ws : List ℝ) : List ℝ :=
  if 0 < ws.sum then ws.map (fun w => w / ws.sum)
  else List.replicate ws.length ((1 : ℝ) / ws.length)

/-- Line 414/422: `np.mean(np.abs(new - old))` over parallel vectors. -/
noncomputable def meanAbsDiff (a b : List ℝ) : ℝ :=
  (List.zipWith (fun x y => |x - y|) a b).sum / a.length

/-- Lines 385–411 packaged: the freshly computed, normalised
(theta_weights, phi_weights) pair. -/
noncomputable def emNewWeights (participants : List ℕ) (diseased : List Bool)
    (stagePost : ℕ → List ℝ) (diseaseStages : List ℕ) (currOrder : ℕ) :
    List ℝ × List ℝ :=
  (normalizeOrUniform (rawThetaWeights participants diseased stagePost diseaseStages currOrder),
   normalizeOrUniform (rawPhiWeights participants diseased stagePost diseaseStages currOrder))

/-- Lines 357–429: `update_kde_for_biomarker_em`.  After computing the new
weights, each side independently either reuses the existing KDE and keeps the
previous weight vector (mean absolute change strictly below
`weight_change_threshold`) or builds a brand-new `FastKDE` from the
measurements and the new weights (default `'silverman'` bandwidth). -/
noncomputable def update_kde_for_biomarker_em (participants : List ℕ)
    (measurements : List ℝ) (diseased : List Bool) (stagePost : ℕ → List ℝ)
    (current : KDEEntry) (diseaseStages : List ℕ) (currOrder : ℕ)
    (weight_change_threshold : ℝ) : FastKDE × List ℝ × FastKDE × List ℝ :=
  let new := emNewWeights participants diseased stagePost diseaseStages currOrder
  let theta :=
    if meanAbsDiff new.1 current.theta_weights < weight_change_threshold then
      (current.theta_kde, current.theta_weights)
    else (FastKDE.ofData measurements (some new.1) none, new.1)
  let phi :=
    if meanAbsDiff new.2 current.phi_weights < weight_change_threshold then
      (current.phi_kde, current.phi_weights)
    else (FastKDE.ofData measurements (some new.2) none, new.2)
  (theta.1, theta.2, phi.1, phi.2)

lemma getD_zip_of_lt {α β : Type} (d1 : α) (d2 : β) :
    ∀ (l1 : List α) (l2 : List β) (i : ℕ), i < l1.length → i < l2.length →
      (l1.zip l2).getD i (d1, d2) = (l1.getD i d1, l2.getD i d2) := by
  intro l1
  induction l1 with
  | nil => intro l2 i h1 _; simp at h1
  | cons a t ih =>
    intro l2 i h1 h2
    cases l2 with
    | nil => simp at h2
    | cons b u =>
      cases i with
      | zero => rfl
      | succ j =>
        simp only [List.zip_cons_cons, List.getD_cons_succ]
        exact ih u j (by simpa using h1) (by simpa using h2)

lemma sum_map_div (c : ℝ) : ∀ (ws : List ℝ), (ws.map (fun w => w / c)).sum = ws.sum / c := by
  intro ws
  induction ws with
  | nil => simp
  | cons w t ih =>
    simp only [List.map_cons, List.sum_cons, ih]
    rw [add_div]

lemma normalizeOrUniform_sum (ws : List ℝ) (h : ws ≠ []) :
    (normalizeOrUniform ws).sum = 1 := by
  have hlen : ws.length ≠ 0 := fun hc => h (List.length_eq_zero.mp hc)
  have hcast : (ws.length : ℝ) ≠ 0 := Nat.cast_ne_zero.mpr hlen
  unfold normalizeOrUniform
  split
  · next hs => rw [sum_map_div, div_self (ne_of_gt hs)]
  · rw [List.sum_replicate, nsmul_eq_mul, mul_one_div, div_self hcast]

lemma normalizeOrUniform_length (ws : List ℝ) : (normalizeOrUniform ws).length = ws.length := by
  unfold normalizeOrUniform
  split
  · rw [List.length_map]
  · rw [List.length_replicate]

lemma rawThetaWeights_length (participants : List ℕ) (diseased : List Bool)
    (stagePost : ℕ → List ℝ) (diseaseStages : List ℕ) (currOrder : ℕ)
    (hd : diseased.length = participants.length) :
    (rawThetaWeights participants diseased stagePost diseaseStages currOrder).length =
      participants.length := by
  unfold rawThetaWeights
  rw [List.length_map, List.length_zip, hd, min_self]

lemma rawPhiWeights_length (participants : List ℕ) (diseased : List Bool)
    (stagePost : ℕ → List ℝ) (diseaseStages : List ℕ) (currOrder : ℕ)
    (hd : diseased.length = participants.length) :
    (rawPhiWeights participants diseased stagePost diseaseStages currOrder).length =
      participants.length := by
  unfold rawPhiWeights
  rw [List.length_map, List.length_zip, hd, min_self]

lemma rawThetaWeights_getD (participants : List ℕ) (diseased : List Bool)
    (stagePost : ℕ → List ℝ) (diseaseStages : List ℕ) (currOrder : ℕ) (i : ℕ)
    (hi : i < participants.length) (hd : diseased.length = participants.length) :
    (rawThetaWeights participants diseased stagePost diseaseStages currOrder).getD i 0 =
      (if diseased.getD i false then
        maskSumGe (stagePost (participants.getD i 0)) diseaseStages currOrder
      else 0) := by
  unfold rawThetaWeights
  rw [getD_map_of_lt _ (0, false) 0 _ i
    (by rw [List.length_zip, hd, min_self]; exact hi)]
  rw [getD_zip_of_lt 0 false participants diseased i hi (hd ▸ hi)]

lemma rawPhiWeights_getD (participants : List ℕ) (diseased : List Bool)
    (stagePost : ℕ → List ℝ) (diseaseStages : List ℕ) (currOrder : ℕ) (i : ℕ)
    (hi : i < participants.length) (hd : diseased.length = participants.length) :
    (rawPhiWeights participants diseased stagePost diseaseStages currOrder).getD i 0 =
      (if diseased.getD i false then
        maskSumLt (stagePost (participants.getD i 0)) diseaseStages currOrder
      else 1) := by
  unfold rawPhiWeights
  rw [getD_map_of_lt _ (0, false) 0 _ i
    (by rw [List.length_zip, hd, min_self]; exact hi)]
  rw [getD_zip_of_lt 0 false participants diseased i hi (hd ▸ hi)]

/-- C4: in the EM weight update each non-diseased participant contributes raw
weights `phi = 1`, `theta = 0`; each diseased participant contributes
`theta` = posterior mass on stages at or above the biomarker's assigned stage
and `phi` = the mass strictly below; both vectors are then normalised to sum
to 1, and a vector with zero sum is replaced by the uniform distribution over
all participants instead of raising an error. -/
theorem em_weight_update (participants : List ℕ) (diseased : List Bool)
    (stagePost : ℕ → List ℝ) (diseaseStages : List ℕ) (currOrder : ℕ)
    (hn : 0 < participants.length) (hd : diseased.length = participants.length) :
    (∀ i, i < participants.length → diseased.getD i false = false →
      (rawPhiWeights participants diseased stagePost diseaseStages currOrder).getD i 0 = 1 ∧
      (rawThetaWeights participants diseased stagePost diseaseStages currOrder).getD i 0 = 0) ∧
    (∀ i, i < participants.length → diseased.getD i false = true →
      (rawThetaWeights participants diseased stagePost diseaseStages currOrder).getD i 0 =
        maskSumGe (stagePost (participants.getD i 0)) diseaseStages currOrder ∧
      (rawPhiWeights participants diseased stagePost diseaseStages currOrder).getD i 0 =
        maskSumLt (stagePost (participants.getD i 0)) diseaseStages currOrder) ∧
    (emNewWeights participants diseased stagePost diseaseStages currOrder).1.sum = 1 ∧
    (emNewWeights participants diseased stagePost diseaseStages currOrder).2.sum = 1 ∧
    ((rawThetaWeights participants diseased stagePost diseaseStages currOrder).sum = 0 →
      (emNewWeights participants diseased stagePost diseaseStages currOrder).1 =
        List.replicate participants.length ((1 : ℝ) / participants.length)) ∧
    ((rawPhiWeights participants diseased stagePost diseaseStages currOrder).sum = 0 →
      (emNewWeights participants diseased stagePost diseaseStages currOrder).2 =
        List.replicate participants.length ((1 : ℝ) / participants.length)) := by
  have hTlen := rawThetaWeights_length participants diseased stagePost diseaseStages currOrder hd
  have hPlen := rawPhiWeights_length participants diseased stagePost diseaseStages currOrder hd
  have hTne : rawThetaWeights participants diseased stagePost diseaseStages currOrder ≠ [] := by
    intro hc
    rw [hc] at hTlen
    simp at hTlen
    omega
  have hPne : rawPhiWeights participants diseased stagePost diseaseStages currOrder ≠ [] := by
    intro hc
    rw [hc] at hPlen
    simp at hPlen
    omega
  refine ⟨?_, ?_, ?_, ?_, ?_, ?_⟩
  · intro i hi hdis
    rw [rawPhiWeights_getD participants diseased stagePost diseaseStages currOrder i hi hd,
      rawThetaWeights_getD participants diseased stagePost diseaseStages currOrder i hi hd,
      hdis]
    exact ⟨rfl, rfl⟩
  · intro i hi hdis
    rw [rawPhiWeights_getD participants diseased stagePost diseaseStages currOrder i hi hd,
      rawThetaWeights_getD participants diseased stagePost diseaseStages currOrder i hi hd,
      hdis]
    exact ⟨rfl, rfl⟩
  · exact normalizeOrUniform_sum _ hTne
  · exact normalizeOrUniform_sum _ hPne
  · intro hz
    show normalizeOrUniform _ = _
    unfold normalizeOrUniform
    rw [if_neg (by rw [hz]; exact lt_irrefl 0), hTlen]
  · intro hz
    show normalizeOrUniform _ = _
    unfold normalizeOrUniform
    rw [if_neg (by rw [hz]; exact lt_irrefl 0), hPlen]

/-- Concrete instantiation of `em_weight_update`: two participants, the first
non-diseased and the second diseased. -/
theorem em_weight_update_witness :
    (emNewWeights [7, 8] [false, true] (fun _ => [1 / 2, 1 / 2]) [1, 2] 2).1.sum = 1 ∧
    (emNewWeights [7, 8] [false, true] (fun _ => [1 / 2, 1 / 2]) [1, 2] 2).2.sum = 1 :=
  ⟨(em_weight_update [7, 8] [false, true] (fun _ => [1 / 2, 1 / 2]) [1, 2] 2
      (by norm_num) rfl).2.2.1,
   (em_weight_update [7, 8] [false, true] (fun _ => [1 / 2, 1 / 2]) [1, 2] 2
      (by norm_num) rfl).2.2.2.1⟩

/-- C5: the reuse policy of the EM updater, independently for theta and phi:
when the mean absolute difference between the new and previous weight vectors
is strictly below `weight_change_threshold`, the existing KDE and the
previous weight vector are returned unchanged; otherwise a brand-new KDE is
constructed from the measurements and the new weights. -/
theorem em_kde_reuse_policy (participants : List ℕ) (measurements : List ℝ)
    (diseased : List Bool) (stagePost : ℕ → List ℝ) (current : KDEEntry)
    (diseaseStages : List ℕ) (currOrder : ℕ) (wct : ℝ) :
    (meanAbsDiff (emNewWeights participants diseased stagePost diseaseStages currOrder).1
        current.theta_weights < wct →
      (update_kde_for_biomarker_em participants measurements diseased stagePost current
        diseaseStages currOrder wct).1 = current.theta_kde ∧
      (update_kde_for_biomarker_em participants measurements diseased stagePost current
        diseaseStages currOrder wct).2.1 = current.theta_weights) ∧
    (¬ meanAbsDiff (emNewWeights participants diseased stagePost diseaseStages currOrder).1
        current.theta_weights < wct →
      (update_kde_for_biomarker_em participants measurements diseased stagePost current
        diseaseStages currOrder wct).1 =
        FastKDE.ofData measurements
          (some (emNewWeights participants diseased stagePost diseaseStages currOrder).1) none ∧
      (update_kde_for_biomarker_em participants measurements diseased stagePost current
        diseaseStages currOrder wct).2.1 =
        (emNewWeights participants diseased stagePost diseaseStages currOrder).1) ∧
    (meanAbsDiff (emNewWeights participants diseased stagePost diseaseStages currOrder).2
        current.phi_weights < wct →
      (update_kde_for_biomarker_em participants measurements diseased stagePost current
        diseaseStages currOrder wct).2.2.1 = current.phi_kde ∧
      (update_kde_for_biomarker_em participants measurements diseased stagePost current
        diseaseStages currOrder wct).2.2.2 = current.phi_weights) ∧
    (¬ meanAbsDiff (emNewWeights participants diseased stagePost diseaseStages currOrder).2
        current.phi_weights < wct →
      (update_kde_for_biomarker_em participants measurements diseased stagePost current
        diseaseStages currOrder wct).2.2.1 =
        FastKDE.ofData measurements
          (some (emNewWeights participants diseased stagePost diseaseStages currOrder).2) none ∧
      (update_kde_for_biomarker_em participants measurements diseased stagePost current
        diseaseStages currOrder wct).2.2.2 =
        (emNewWeights participants diseased stagePost diseaseStages currOrder).2) := by
  refine ⟨fun h => ?_, fun h => ?_, fun h => ?_, fun h => ?_⟩ <;>
    simp only [update_kde_for_biomarker_em] <;>
    first
      | (rw [if_pos h]; exact ⟨rfl, rfl⟩)
      | (rw [if_neg h]; exact ⟨rfl, rfl⟩)

/-- A concrete current entry for the reuse-policy witness: stored theta
weights equal the incoming update, stored phi weights do not. -/
noncomputable def kdeReuseEntryW : KDEEntry := ⟨⟨[5], [1], 1⟩, [1], ⟨[6], [1], 1⟩, [0]⟩

lemma emNewWeightsW :
    emNewWeights [0] [false] (fun _ => ([] : List ℝ)) [] 0 = ([1], [1]) := by
  unfold emNewWeights rawThetaWeights rawPhiWeights normalizeOrUniform
  norm_num [List.zip, List.zipWith, maskSumGe, maskSumLt]

/-- Concrete instantiation of `em_kde_reuse_policy`: with one non-diseased
participant the theta weights are unchanged (KDE reused) while the phi
weights move by 1 (KDE rebuilt). -/
theorem em_kde_reuse_policy_witness :
    (update_kde_for_biomarker_em [0] [5] [false] (fun _ => ([] : List ℝ))
      kdeReuseEntryW [] 0 (1 / 100)).1 = kdeReuseEntryW.theta_kde ∧
    (update_kde_for_biomarker_em [0] [5] [false] (fun _ => ([] : List ℝ))
      kdeReuseEntryW [] 0 (1 / 100)).2.2.1 =
      FastKDE.ofData [5]
        (some (emNewWeights [0] [false] (fun _ => ([] : List ℝ)) [] 0).2) none := by
  have hθ : meanAbsDiff (emNewWeights [0] [false] (fun _ => ([] : List ℝ)) [] 0).1
      kdeReuseEntryW.theta_weights < 1 / 100 := by
    rw [emNewWeightsW]
    norm_num [meanAbsDiff, kdeReuseEntryW, List.zipWith]
  have hφ : ¬ meanAbsDiff (emNewWeights [0] [false] (fun _ => ([] : List ℝ)) [] 0).2
      kdeReuseEntryW.phi_weights < 1 / 100 := by
    rw [emNewWeightsW]
    norm_num [meanAbsDiff, kdeReuseEntryW, List.zipWith]
  exact ⟨((em_kde_reuse_policy [0] [5] [false] (fun _ => ([] : List ℝ))
      kdeReuseEntryW [] 0 (1 / 100)).1 hθ).1,
    ((em_kde_reuse_policy [0] [5] [false] (fun _ => ([] : List ℝ))
      kdeReuseEntryW [] 0 (1 / 100)).2.2.2 hφ).1⟩

/-! ### Algorithm-name validation (`run.py`, lines 60–62) -/

/-- Line 60: `allowed_algorithms = {'hard_kmeans', 'mle', 'conjugate_priors',
'em', 'kde'}` — the fixed-clustering baseline, parametric maximum-likelihood,
parametric conjugate-prior, and the non-parametric EM/KDE model under its two
names. -/
def allowed_algorithms : List String :=
  ["hard_kmeans", "mle", "conjugate_priors", "em", "kde"]

/-- Lines 60–62 of `run_ebm`: the `algorithm` name is validated before
anything else runs; `pipeline` stands for the whole remainder of `run_ebm`
(cleanup, data loading, the sampler, reporting), which executes only when the
name is allowed. -/
def run_ebm_model {α : Type} (algorithm : String) (pipeline : Unit → α) : Except String α :=
  if algorithm ∈ allowed_algorithms then Except.ok (pipeline ())
  else Except.error ("Invalid algorithm " ++ algorithm)

/-- C8: a `likelihood_model` name outside the supported set fails with the
invalid-configuration error before any data processing or sampler iteration
(the result is the error regardless of what the rest of the pipeline would
compute), and every supported name passes validation and runs the
pipeline. -/
theorem run_ebm_validation {α : Type} (algorithm : String) (p q : Unit → α) :
    (algorithm ∉ allowed_algorithms →
      run_ebm_model algorithm p = Except.error ("Invalid algorithm " ++ algorithm) ∧
      run_ebm_model algorithm p = run_ebm_model algorithm q) ∧
    (algorithm ∈ allowed_algorithms → run_ebm_model algorithm p = Except.ok (p ())) := by
  constructor
  · intro h
    unfold run_ebm_model
    rw [if_neg h, if_neg h]
    exact ⟨rfl, rfl⟩
  · intro h
    unfold run_ebm_model
    rw [if_pos h]

/-- The algorithm name used on the accepted side of the validation witness. -/
def algKdeW : String := "kde"

/-- An unsupported algorithm name for the validation witness. -/
def algBogusW : String := "soft_kmeans"

/-- Concrete instantiation of `run_ebm_validation`: `'soft_kmeans'` is
rejected without running the pipeline, `'kde'` is accepted. -/
theorem run_ebm_validation_witness :
    run_ebm_model algBogusW (fun _ => (0 : ℕ)) =
      Except.error ("Invalid algorithm " ++ algBogusW) ∧
    run_ebm_model algKdeW (fun _ => (0 : ℕ)) = Except.ok 0 :=
  ⟨((run_ebm_validation algBogusW (fun _ => (0 : ℕ)) (fun _ => (0 : ℕ))).1 (by decide)).1,
   (run_ebm_validation algKdeW (fun _ => (0 : ℕ)) (fun _ => (0 : ℕ))).2 (by decide)⟩
